import Mathlib

/-! Shallow embedding of the NPDECODES homework code in
`developers/StableEvaluationAtAPoint/mastersolution/stableevaluationatapoint.h`
(C++ namespace `StableEvaluationAtAPoint`), together with theorems about it.

Modelling conventions: machine `double` arithmetic is embedded as exact real
arithmetic on `ℝ`; `Eigen::Vector2d` becomes the structure `Vec2`; the
`LF_ASSERT_MSG` precondition guard of the fundamental solution is embedded as
an `Option` result (`none` = assertion failure); the `LF_VERIFY_MSG` aborts
in `SolveBVP` are embedded as `Except.error`; the LehrFEM++ library
collaborators consumed by the code (mesh entity iteration with boundary
flags, segment geometry, load-vector assembly, essential-condition
initialisation and elimination, and Eigen's sparse LU) are embedded by
explicit models of their documented semantics, stated next to each
definition. -/

namespace StableEvaluationAtAPoint

open Real Filter Set

open scoped Classical

noncomputable section

/-- Embeds `Eigen::Vector2d`: a 2-D coordinate vector. -/
structure Vec2 where
  x : ℝ
  y : ℝ

/-- Vector sum `a + b`. -/
def Vec2.add (a b : Vec2) : Vec2 := ⟨a.x + b.x, a.y + b.y⟩

/-- Vector difference `a - b`. -/
def Vec2.sub (a b : Vec2) : Vec2 := ⟨a.x - b.x, a.y - b.y⟩

/-- Scalar multiple `c * a`. -/
def Vec2.smul (c : ℝ) (a : Vec2) : Vec2 := ⟨c * a.x, c * a.y⟩

/-- Inner product `a.dot(b)`. -/
def Vec2.dot (a b : Vec2) : ℝ := a.x * b.x + a.y * b.y

/-- `a.squaredNorm()`. -/
def Vec2.squaredNorm (a : Vec2) : ℝ := a.dot a

/-- `a.norm()`: the Euclidean norm. -/
def Vec2.norm (a : Vec2) : ℝ := Real.sqrt a.squaredNorm

/-- Value of the fundamental solution, `FundamentalSolution(x)(y)` in
`stableevaluationatapoint.h` (the commented reference `G`):
`(-1.0 / (2.0 * M_PI)) * std::log((x - y).norm())`. -/
def Gval (x y : Vec2) : ℝ := (-1 / (2 * π)) * Real.log ((x.sub y).norm)

/-- Gradient of the fundamental solution, `FundamentalSolution(x).grad(y)`
(the commented reference `gradG`):
`(x - y) / (2.0 * M_PI * (x - y).squaredNorm())`. -/
def gradGval (x y : Vec2) : Vec2 :=
  Vec2.smul (1 / (2 * π * (x.sub y).squaredNorm)) (x.sub y)

/-- The fundamental-solution evaluation together with its
`LF_ASSERT_MSG(x != y, "G not defined for these coordinates!")` guard from
the reference code: the assertion failure at `y = x` is embedded as `none`. -/
def G (x y : Vec2) : Option ℝ := if x = y then none else some (Gval x y)

/-- The fundamental-solution gradient together with its `LF_ASSERT_MSG`
guard, as in `G`. -/
def gradG (x y : Vec2) : Option Vec2 := if x = y then none else some (gradGval x y)

/-- A mesh edge as `PSL`/`PDL` consume it: the two corner points delivered by
`lf::geometry::Corners` and the flag delivered by
`lf::mesh::utils::flagEntitiesOnBoundary` (the external mesh library is the
authority for this flag, so it is a plain field of the model). -/
structure Edge where
  c0 : Vec2
  c1 : Vec2
  onBoundary : Bool

/-- The edge midpoint computed in `PSL`/`PDL`:
`0.5 * (corners.col(0) + corners.col(1))`. -/
def Edge.midpoint (e : Edge) : Vec2 := Vec2.smul 0.5 (e.c0.add e.c1)

/-- `lf::geometry::Volume` of a straight segment: its length. -/
def Edge.volume (e : Edge) : ℝ := (e.c1.sub e.c0).norm

/-- A mesh as `PSL`/`PDL` traverse it: the list of its codimension-1
entities, `mesh->Entities(1)`, in storage order. -/
structure Mesh where
  edges : List Edge

/-- Modelled from the spec: the body of `OuterNormalUnitSquare` is in
`stableevaluationatapoint.cc`, which is not under `src/` (the header only
declares it). Per the spec it returns one of the four axis-aligned outward
unit normals of the unit square, selected by the boundary side on which the
point lies. -/
def OuterNormalUnitSquare (p : Vec2) : Vec2 :=
  if p.x = 0 then ⟨-1, 0⟩
  else if p.x = 1 then ⟨1, 0⟩
  else if p.y = 0 then ⟨0, -1⟩
  else ⟨0, 1⟩

/-- `PSL(mesh, v, x)`: the accumulation loop over `mesh->Entities(1)` from
the header, adding `v(midpoint) * G(midpoint) * Volume(e)` for each edge
whose boundary flag is set.  The call `G(midpoint)` on the
`FundamentalSolution` object is embedded by its value `Gval` (for an
interior evaluation point the midpoint of a boundary edge never hits the
singularity, so the guard of `G` never fires). -/
def PSL (mesh : Mesh) (v : Vec2 → ℝ) (x : Vec2) : ℝ :=
  mesh.edges.foldl
    (fun acc e =>
      if e.onBoundary then acc + v e.midpoint * Gval x e.midpoint * e.volume else acc)
    0

/-- `PDL(mesh, v, x)`: the accumulation loop over `mesh->Entities(1)` from
the header, adding `v(midpoint) * (G.grad(midpoint)).dot(n) * Volume(e)`
with `n = OuterNormalUnitSquare(midpoint)` for each boundary-flagged edge. -/
def PDL (mesh : Mesh) (v : Vec2 → ℝ) (x : Vec2) : ℝ :=
  mesh.edges.foldl
    (fun acc e =>
      if e.onBoundary then
        acc + v e.midpoint * ((gradGval x e.midpoint).dot (OuterNormalUnitSquare e.midpoint))
            * e.volume
      else acc)
    0

/-- `constant` in the reference `Psi` code: `M_PI / (0.5 * std::sqrt(2) - 1.0)`. -/
def psiConst : ℝ := π / (0.5 * Real.sqrt 2 - 1)

/-- The transition branch of `Psi`:
`std::pow(std::cos(constant * (dist - 0.5)), 2)`. -/
def transPsi (d : ℝ) : ℝ := Real.cos (psiConst * (d - 0.5)) ^ 2

/-- The scalar coefficient of the transition branch of `gradPsi`:
`-2.0 * cos(constant*(dist-0.5)) * sin(constant*(dist-0.5)) * (constant/dist)`. -/
def gradPsiCoeff (d : ℝ) : ℝ :=
  -2 * Real.cos (psiConst * (d - 0.5)) * Real.sin (psiConst * (d - 0.5)) * (psiConst / d)

/-- `Psi::operator()` from the reference code (class member `center_`,
default `(0.5, 0.5)`, generalised to an arbitrary center as by the
constructor): 0 inside radius `0.25*sqrt(2)`, 1 outside radius `0.5`,
`cos^2(constant*(dist-0.5))` in between. -/
def Psi (center y : Vec2) : ℝ :=
  if (y.sub center).norm ≤ 0.25 * Real.sqrt 2 then 0
  else if 0.5 ≤ (y.sub center).norm then 1
  else transPsi ((y.sub center).norm)

/-- `Psi::grad` from the reference code (`gradPsi`): `(0,0)` in the inner
and outer regions, the radial expression in the transition region. -/
def gradPsi (center y : Vec2) : Vec2 :=
  if (y.sub center).norm ≤ 0.25 * Real.sqrt 2 then ⟨0, 0⟩
  else if 0.5 ≤ (y.sub center).norm then ⟨0, 0⟩
  else Vec2.smul (gradPsiCoeff ((y.sub center).norm)) (y.sub center)

/-- `Psi::lapl` from the reference code (`laplPsi`), transcribed term by
term: the transition branch is
`(2*constant^2 / squaredNorm) * dot * (sin^2 - cos^2)
 - (2*constant/dist) * cos * sin * (1 - dot/squaredNorm)`. -/
def laplPsi (center y : Vec2) : ℝ :=
  if (y.sub center).norm ≤ 0.25 * Real.sqrt 2 then 0
  else if 0.5 ≤ (y.sub center).norm then 0
  else
    2 * psiConst ^ 2 / (y.sub center).squaredNorm * ((y.sub center).dot (y.sub center)) *
        (Real.sin (psiConst * ((y.sub center).norm - 0.5)) ^ 2
          - Real.cos (psiConst * ((y.sub center).norm - 0.5)) ^ 2)
      - 2 * psiConst / (y.sub center).norm * Real.cos (psiConst * ((y.sub center).norm - 0.5))
          * Real.sin (psiConst * ((y.sub center).norm - 0.5))
          * (1 - (y.sub center).dot (y.sub center) / (y.sub center).squaredNorm)

/-- The analytic Laplacian of the radial profile `f(d) = cos^2(c*(d-0.5))`
of `Psi`, following the words of claim C3: the radial curvature term
`f''(d)` plus the transverse curvature term `f'(d)/d`, both taken as honest
Mathlib derivatives of the profile `transPsi`. -/
def radialProfileLaplacian (d : ℝ) : ℝ :=
  deriv (deriv transPsi) d + deriv transPsi d / d

/-- Auxiliary for the transition-continuity analysis: the transition
gradient coefficient with the `constant/dist` factor multiplied out by
`dist` (the value of `gradPsiCoeff d * d` away from `d = 0`). -/
def coeffCore (d : ℝ) : ℝ :=
  -2 * Real.cos (psiConst * (d - 0.5)) * Real.sin (psiConst * (d - 0.5)) * psiConst

/-- One scatter-add contribution of the load-vector assembly
(`lf::uscalfe::ScalarLoadElementVectorProvider` together with
`lf::assemble::AssembleVectorLocally`): a global dof index (through the
local-to-global map of the dof handler) and the list of quadrature terms
for that dof, each a pair of a combined weight (quadrature weight times
metric factor times shape-function value) and the mapped quadrature point
at which the source function is sampled. -/
structure LoadEntry (n : ℕ) where
  dof : Fin n
  terms : List (ℝ × Vec2)

/-- The value a `LoadEntry` contributes for source function `f`: the
quadrature-weighted sum of samples of `f`. -/
def entryValue {n : ℕ} (f : Vec2 → ℝ) (t : LoadEntry n) : ℝ :=
  (t.terms.map fun wp => wp.1 * f wp.2).sum

/-- Models `AssembleVectorLocally(0, dofh, elvec_builder, phi)`: fold the
scatter-add contributions of all cells into the initial vector `phi0`. -/
def AssembleVectorLocally {n : ℕ} (f : Vec2 → ℝ) (entries : List (LoadEntry n))
    (phi0 : Fin n → ℝ) : Fin n → ℝ :=
  entries.foldl
    (fun phi t => fun i => if i = t.dof then phi i + entryValue f t else phi i) phi0

/-- Models `lf::fe::InitEssentialConditionFromFunction(*fe_space_p, bd_flags,
mf_g)`: for each global dof a flag telling whether it sits on a
boundary-flagged entity, and, when flagged, the Dirichlet value obtained by
sampling `g` at the dof's interpolation node. -/
def InitEssentialConditionFromFunction {n : ℕ} (bd_flags : Fin n → Bool)
    (coords : Fin n → Vec2) (g : Vec2 → ℝ) : Fin n → Bool × ℝ :=
  fun i => (bd_flags i, if bd_flags i then g (coords i) else 0)

/-- Models `lf::assemble::FixFlaggedSolutionCompAlt`: eliminate the flagged
solution components from the linear system.  Flagged rows become unit rows
with the prescribed value on the right-hand side; in free rows the flagged
columns are moved to the right-hand side. -/
def FixFlaggedSolutionCompAlt {n : ℕ} (sel : Fin n → Bool × ℝ)
    (A : Matrix (Fin n) (Fin n) ℝ) (phi : Fin n → ℝ) :
    Matrix (Fin n) (Fin n) ℝ × (Fin n → ℝ) :=
  (Matrix.of fun i j =>
      if (sel i).1 then (if i = j then 1 else 0)
      else if (sel j).1 then 0 else A i j,
   fun i =>
      if (sel i).1 then (sel i).2
      else phi i - ∑ j, if (sel j).1 then A i j * (sel j).2 else 0)

/-- The data `SolveBVP` obtains from its finite-element-space argument
through the LehrFEM++ collaborators: the Galerkin (stiffness) matrix
assembled by `AssembleMatrixLocally` with `LinearFELaplaceElementMatrix`
(kept abstract, since the element matrices come from the external library),
the load-assembly quadrature data, and the per-dof boundary flags
(`flagEntitiesOnBoundary`) and interpolation-node coordinates. -/
structure BVPSystem (n : ℕ) where
  stiffness : Matrix (Fin n) (Fin n) ℝ
  loadCells : List (LoadEntry n)
  bd_flags : Fin n → Bool
  coords : Fin n → Vec2

/-- The load vector `phi` of `SolveBVP`: initialised to zero
(`phi.setZero()`) and assembled with the hard-coded source
`mf_f = [](Eigen::Vector2d x) { return 0.0; }`. -/
def bvpLoad {n : ℕ} (sys : BVPSystem n) : Fin n → ℝ :=
  AssembleVectorLocally (fun _ => 0) sys.loadCells (fun _ => 0)

/-- The fixed-dof selector of `SolveBVP`, built from the Dirichlet data `u`:
`edges_flag_values_Dirichlet` in the source. -/
def bvpSelector {n : ℕ} (sys : BVPSystem n) (u : Vec2 → ℝ) : Fin n → Bool × ℝ :=
  InitEssentialConditionFromFunction sys.bd_flags sys.coords u

/-- The system matrix of `SolveBVP` after elimination of the fixed dofs. -/
def bvpMatrix {n : ℕ} (sys : BVPSystem n) (u : Vec2 → ℝ) : Matrix (Fin n) (Fin n) ℝ :=
  (FixFlaggedSolutionCompAlt (bvpSelector sys u) sys.stiffness (bvpLoad sys)).1

/-- The right-hand side of `SolveBVP` after elimination of the fixed dofs. -/
def bvpRhs {n : ℕ} (sys : BVPSystem n) (u : Vec2 → ℝ) : Fin n → ℝ :=
  (FixFlaggedSolutionCompAlt (bvpSelector sys u) sys.stiffness (bvpLoad sys)).2

/-- The two `LF_VERIFY_MSG` failure modes of `SolveBVP`: the message
texts in the source are `LU decomposition failed` and `Solving LSE failed`. -/
inductive SolveError where
  | luFailed
  | lseFailed

/-- `SolveBVP(fe_space_p, u)`.  Eigen's `SparseLU` is an external black box;
its two stages `solver.compute(A_sparse)` and `solver.solve(phi)` are
parameters `compute` and `solve`, each returning `none` exactly when
`solver.info() != Eigen::Success` afterwards.  The `LF_VERIFY_MSG` aborts
become `Except.error`; a coefficient vector is produced only when both
stages succeed. -/
def SolveBVP {n : ℕ} {F : Type} (compute : Matrix (Fin n) (Fin n) ℝ → Option F)
    (solve : F → (Fin n → ℝ) → Option (Fin n → ℝ))
    (sys : BVPSystem n) (u : Vec2 → ℝ) : Except SolveError (Fin n → ℝ) :=
  match compute (bvpMatrix sys u) with
  | none => Except.error SolveError.luFailed
  | some fact =>
    match solve fact (bvpRhs sys u) with
    | none => Except.error SolveError.lseFailed
    | some sol => Except.ok sol

/-- Concrete one-dof instance used to witness the `SolveBVP` theorems. -/
def sampleBVP : BVPSystem 1 where
  stiffness := Matrix.of fun _ _ => 3
  loadCells := []
  bd_flags := fun _ => true
  coords := fun _ => ⟨0, 0⟩

end

/-! Helper lemmas. -/

theorem foldl_if_sum {α : Type} (p : α → Bool) (f : α → ℝ) :
    ∀ (l : List α) (a : ℝ),
      List.foldl (fun acc e => if p e then acc + f e else acc) a l
        = a + (List.map f (List.filter p l)).sum := by
  intro l
  induction l with
  | nil => intro a; simp
  | cons hd tl ih =>
      intro a
      rcases Bool.eq_false_or_eq_true (p hd) with h | h
      · simp [List.foldl_cons, h, List.filter_cons, ih, add_assoc]
      · simp [List.foldl_cons, h, List.filter_cons, ih, add_assoc]

theorem PSL_eq (mesh : Mesh) (v : Vec2 → ℝ) (x : Vec2) :
    PSL mesh v x
      = ((mesh.edges.filter fun e => e.onBoundary).map
          (fun e => v e.midpoint * Gval x e.midpoint * e.volume)).sum := by
  unfold PSL
  exact (foldl_if_sum (fun e : Edge => e.onBoundary)
      (fun e : Edge => v e.midpoint * Gval x e.midpoint * e.volume) mesh.edges 0).trans
    (zero_add _)

theorem PDL_eq (mesh : Mesh) (v : Vec2 → ℝ) (x : Vec2) :
    PDL mesh v x
      = ((mesh.edges.filter fun e => e.onBoundary).map
          (fun e => v e.midpoint * ((gradGval x e.midpoint).dot (OuterNormalUnitSquare e.midpoint))
              * e.volume)).sum := by
  unfold PDL
  exact (foldl_if_sum (fun e : Edge => e.onBoundary)
      (fun e : Edge => v e.midpoint
          * ((gradGval x e.midpoint).dot (OuterNormalUnitSquare e.midpoint)) * e.volume)
      mesh.edges 0).trans
    (zero_add _)

theorem map_sum_linear {α : Type} (f g : α → ℝ) (a b : ℝ) :
    ∀ l : List α,
      (l.map fun e => a * f e + b * g e).sum = a * (l.map f).sum + b * (l.map g).sum := by
  intro l
  induction l with
  | nil => simp
  | cons hd tl ih => simp [ih]; ring

theorem sum_map_zero {α : Type} (l : List α) : (l.map fun _ => (0 : ℝ)).sum = 0 := by
  induction l with
  | nil => simp
  | cons hd tl ih => simp [ih]

/-! Claim C1. -/

/-- C1: for every mesh, density `v` and evaluation point `x`, `PSL` is
exactly the sum over the boundary-flagged edges of
`v(m) * G_x(m) * length(e)` and `PDL` is exactly the sum over the
boundary-flagged edges of `v(m) * (gradG_x(m) . n(m)) * length(e)`, with
`m` the midpoint of the edge's corner points and `n` the axis-aligned
outward normal returned by `OuterNormalUnitSquare`; edges whose boundary
flag is not set do not appear in the sums. -/
theorem PSL_PDL_boundary_midpoint_sum (mesh : Mesh) (v : Vec2 → ℝ) (x : Vec2) :
    PSL mesh v x
      = ((mesh.edges.filter fun e => e.onBoundary).map
          (fun e => v e.midpoint * Gval x e.midpoint * e.volume)).sum ∧
    PDL mesh v x
      = ((mesh.edges.filter fun e => e.onBoundary).map
          (fun e => v e.midpoint * ((gradGval x e.midpoint).dot (OuterNormalUnitSquare e.midpoint))
              * e.volume)).sum :=
  ⟨PSL_eq mesh v x, PDL_eq mesh v x⟩

/-! Claim C10. -/

/-- C10: over the exact real arithmetic of the embedding, `PSL` and `PDL`
are linear in the density argument, and the identically-zero density gives
exactly 0. -/
theorem PSL_PDL_linear_in_density (mesh : Mesh) (v w : Vec2 → ℝ) (a b : ℝ) (x : Vec2) :
    PSL mesh (fun m => a * v m + b * w m) x = a * PSL mesh v x + b * PSL mesh w x ∧
    PDL mesh (fun m => a * v m + b * w m) x = a * PDL mesh v x + b * PDL mesh w x ∧
    PSL mesh (fun _ => 0) x = 0 ∧
    PDL mesh (fun _ => 0) x = 0 := by
  refine ⟨?_, ?_, ?_, ?_⟩
  · rw [PSL_eq mesh (fun m => a * v m + b * w m) x, PSL_eq mesh v x, PSL_eq mesh w x]
    have heq : (fun e : Edge => (a * v e.midpoint + b * w e.midpoint) * Gval x e.midpoint * e.volume)
        = fun e : Edge => a * (v e.midpoint * Gval x e.midpoint * e.volume)
            + b * (w e.midpoint * Gval x e.midpoint * e.volume) := by
      funext e; ring
    rw [heq]
    exact map_sum_linear (fun e : Edge => v e.midpoint * Gval x e.midpoint * e.volume)
      (fun e : Edge => w e.midpoint * Gval x e.midpoint * e.volume) a b _
  · rw [PDL_eq mesh (fun m => a * v m + b * w m) x, PDL_eq mesh v x, PDL_eq mesh w x]
    have heq : (fun e : Edge => (a * v e.midpoint + b * w e.midpoint)
          * ((gradGval x e.midpoint).dot (OuterNormalUnitSquare e.midpoint)) * e.volume)
        = fun e : Edge => a * (v e.midpoint
              * ((gradGval x e.midpoint).dot (OuterNormalUnitSquare e.midpoint)) * e.volume)
            + b * (w e.midpoint
              * ((gradGval x e.midpoint).dot (OuterNormalUnitSquare e.midpoint)) * e.volume) := by
      funext e; ring
    rw [heq]
    exact map_sum_linear
      (fun e : Edge => v e.midpoint
          * ((gradGval x e.midpoint).dot (OuterNormalUnitSquare e.midpoint)) * e.volume)
      (fun e : Edge => w e.midpoint
          * ((gradGval x e.midpoint).dot (OuterNormalUnitSquare e.midpoint)) * e.volume) a b _
  · rw [PSL_eq]
    simp [sum_map_zero]
  · rw [PDL_eq]
    simp [sum_map_zero]

/-! Claim C4. -/

/-- C4: away from the singular point the fundamental solution and its
gradient take the closed-form values `-(1/(2π)) log‖x−y‖` and
`(x−y)/(2π‖x−y‖²)`; evaluation at `y = x` trips the assertion guard
(embedded as `none`) instead of returning a value. -/
theorem fundamentalSolution_formula :
    (∀ x y : Vec2, y ≠ x →
        G x y = some ((-1 / (2 * π)) * Real.log ((x.sub y).norm)) ∧
        gradG x y = some (Vec2.smul (1 / (2 * π * (x.sub y).squaredNorm)) (x.sub y))) ∧
    ∀ x : Vec2, G x x = none ∧ gradG x x = none := by
  constructor
  · intro x y hxy
    have hne : ¬(x = y) := fun h => hxy h.symm
    constructor
    · rw [G, if_neg hne]; rfl
    · rw [gradG, if_neg hne]; rfl
  · intro x
    constructor
    · rw [G, if_pos rfl]
    · rw [gradG, if_pos rfl]

/-- Witness for C4 at the concrete input `x = (0,0)`, `y = (1,0)`. -/
theorem fundamentalSolution_formula_witness :
    ((⟨1, 0⟩ : Vec2) ≠ ⟨0, 0⟩) ∧
    G ⟨0, 0⟩ ⟨1, 0⟩ = some ((-1 / (2 * π)) * Real.log ((Vec2.sub ⟨0, 0⟩ ⟨1, 0⟩).norm)) ∧
    gradG ⟨0, 0⟩ ⟨1, 0⟩
      = some (Vec2.smul (1 / (2 * π * (Vec2.sub ⟨0, 0⟩ ⟨1, 0⟩).squaredNorm))
          (Vec2.sub ⟨0, 0⟩ ⟨1, 0⟩)) := by
  have hne : (⟨1, 0⟩ : Vec2) ≠ ⟨0, 0⟩ := by
    intro h
    exact one_ne_zero (congrArg Vec2.x h)
  exact ⟨hne, (fundamentalSolution_formula.1 ⟨0, 0⟩ ⟨1, 0⟩ hne).1,
    (fundamentalSolution_formula.1 ⟨0, 0⟩ ⟨1, 0⟩ hne).2⟩

/-! Numeric facts about the radii of `Psi`. -/

theorem sqrt_two_lt_two : Real.sqrt 2 < 2 := by
  nlinarith [Real.sq_sqrt (show (0:ℝ) ≤ 2 by norm_num), Real.sqrt_nonneg 2]

theorem sqrt_two_pos : 0 < Real.sqrt 2 := Real.sqrt_pos.mpr (by norm_num)

theorem r1_lt_half : 0.25 * Real.sqrt 2 < 0.5 := by
  nlinarith [sqrt_two_lt_two]

theorem r1_pos : 0 < 0.25 * Real.sqrt 2 := by
  nlinarith [sqrt_two_pos]

theorem halfSqrtTwoSubOne_neg : 0.5 * Real.sqrt 2 - 1 < 0 := by
  nlinarith [sqrt_two_lt_two]

theorem halfSqrtTwoSubOne_ne : 0.5 * Real.sqrt 2 - 1 ≠ 0 :=
  ne_of_lt halfSqrtTwoSubOne_neg

theorem psiConst_neg : psiConst < 0 :=
  div_neg_of_pos_of_neg Real.pi_pos halfSqrtTwoSubOne_neg

theorem psiConst_ne : psiConst ≠ 0 := ne_of_lt psiConst_neg

theorem psiConst_mul_r1 : psiConst * (0.25 * Real.sqrt 2 - 0.5) = π / 2 := by
  have h : (0.25 * Real.sqrt 2 - 0.5 : ℝ) = (0.5 * Real.sqrt 2 - 1) / 2 := by ring
  have hne := halfSqrtTwoSubOne_ne
  rw [psiConst, h]
  field_simp

/-! Claim C5. -/

/-- C5: the three branches of `Psi` and `gradPsi`, for every center and
every point: value 0 and gradient `(0,0)` for `d ≤ 0.25·√2`, value 1 and
gradient `(0,0)` for `d ≥ 0.5`, and the `cos²` profile with the radial
gradient in between (the branch guards do not overlap because
`0.25·√2 < 0.5`). -/
theorem Psi_gradPsi_piecewise (center y : Vec2) :
    ((y.sub center).norm ≤ 0.25 * Real.sqrt 2 →
        Psi center y = 0 ∧ gradPsi center y = ⟨0, 0⟩) ∧
    (0.5 ≤ (y.sub center).norm →
        Psi center y = 1 ∧ gradPsi center y = ⟨0, 0⟩) ∧
    (0.25 * Real.sqrt 2 < (y.sub center).norm → (y.sub center).norm < 0.5 →
        Psi center y = Real.cos (psiConst * ((y.sub center).norm - 0.5)) ^ 2 ∧
        gradPsi center y
          = Vec2.smul
              (-2 * Real.cos (psiConst * ((y.sub center).norm - 0.5))
                 * Real.sin (psiConst * ((y.sub center).norm - 0.5))
                 * (psiConst / (y.sub center).norm))
              (y.sub center)) := by
  refine ⟨fun h => ⟨?_, ?_⟩, fun h => ⟨?_, ?_⟩, fun h1 h2 => ⟨?_, ?_⟩⟩
  · rw [Psi, if_pos h]
  · rw [gradPsi, if_pos h]
  · rw [Psi, if_neg (not_le.mpr (lt_of_lt_of_le r1_lt_half h)), if_pos h]
  · rw [gradPsi, if_neg (not_le.mpr (lt_of_lt_of_le r1_lt_half h)), if_pos h]
  · rw [Psi, if_neg (not_le.mpr h1), if_neg (not_le.mpr h2)]
    rfl
  · rw [gradPsi, if_neg (not_le.mpr h1), if_neg (not_le.mpr h2)]
    rfl

/-- Witness for C5 at the concrete input `center = y = (0,0)` (inner
branch, `d = 0`). -/
theorem Psi_gradPsi_piecewise_witness :
    (Vec2.sub ⟨0, 0⟩ ⟨0, 0⟩).norm ≤ 0.25 * Real.sqrt 2 ∧
    Psi ⟨0, 0⟩ ⟨0, 0⟩ = 0 ∧ gradPsi ⟨0, 0⟩ ⟨0, 0⟩ = ⟨0, 0⟩ := by
  have h : (Vec2.sub ⟨0, 0⟩ ⟨0, 0⟩).norm ≤ 0.25 * Real.sqrt 2 := by
    have h0 : (Vec2.sub ⟨0, 0⟩ ⟨0, 0⟩).norm = 0 := by
      simp [Vec2.norm, Vec2.sub, Vec2.squaredNorm, Vec2.dot]
    rw [h0]
    exact le_of_lt r1_pos
  exact ⟨h, (Psi_gradPsi_piecewise ⟨0, 0⟩ ⟨0, 0⟩).1 h⟩

/-! Continuity toolkit for the transition branch of `Psi`. -/

theorem continuous_theta : Continuous fun d : ℝ => psiConst * (d - 0.5) :=
  continuous_const.mul (continuous_id.sub continuous_const)

theorem continuous_transPsi : Continuous transPsi := by
  show Continuous fun d : ℝ => Real.cos (psiConst * (d - 0.5)) ^ 2
  exact (Real.continuous_cos.comp continuous_theta).pow 2

theorem continuous_coeffCore : Continuous coeffCore := by
  show Continuous fun d : ℝ =>
    -2 * Real.cos (psiConst * (d - 0.5)) * Real.sin (psiConst * (d - 0.5)) * psiConst
  exact ((continuous_const.mul (Real.continuous_cos.comp continuous_theta)).mul
      (Real.continuous_sin.comp continuous_theta)).mul continuous_const

theorem transPsi_r1 : transPsi (0.25 * Real.sqrt 2) = 0 := by
  rw [transPsi, psiConst_mul_r1, Real.cos_pi_div_two]
  norm_num

theorem transPsi_half : transPsi 0.5 = 1 := by
  rw [transPsi]
  have h : psiConst * ((0.5 : ℝ) - 0.5) = 0 := by ring
  rw [h, Real.cos_zero]
  norm_num

theorem coeffCore_r1 : coeffCore (0.25 * Real.sqrt 2) = 0 := by
  rw [coeffCore, psiConst_mul_r1, Real.cos_pi_div_two]
  ring

theorem coeffCore_half : coeffCore 0.5 = 0 := by
  rw [coeffCore]
  have h : psiConst * ((0.5 : ℝ) - 0.5) = 0 := by ring
  rw [h, Real.sin_zero]
  ring

theorem tendsto_gradPsiCoeff_mul (r : ℝ) (hr : 0 < r) (hcc : coeffCore r = 0)
    (s : Set ℝ) (a : ℝ) :
    Tendsto (fun d => gradPsiCoeff d * (d * a)) (nhdsWithin r s) (nhds 0) := by
  have hne : ∀ᶠ d in nhdsWithin r s, d ≠ 0 := by
    have h0 : ∀ᶠ d in nhds r, d ≠ 0 := by
      have hmem : {d : ℝ | d ≠ 0} ∈ nhds r := isOpen_ne.mem_nhds hr.ne'
      exact hmem
    exact h0.filter_mono nhdsWithin_le_nhds
  have h1 : Tendsto (fun d => coeffCore d * a) (nhdsWithin r s) (nhds 0) := by
    have h2 : Tendsto (fun d => coeffCore d * a) (nhds r) (nhds (coeffCore r * a)) :=
      (continuous_coeffCore.mul (continuous_const : Continuous fun _ : ℝ => a)).tendsto r
    rw [hcc, zero_mul] at h2
    exact h2.mono_left nhdsWithin_le_nhds
  refine Filter.Tendsto.congr' ?_ h1
  filter_upwards [hne] with d hd
  rw [coeffCore, gradPsiCoeff]
  field_simp
  ring

/-! Claim C6. -/

/-- C6: `Psi` is continuous with continuous first derivative across the two
transition radii.  For any unit direction `u` (so that `y = center + d·u`
traverses the transition region radially): as `d → 0.25·√2` from above, the
transition-branch value `transPsi d` tends to 0 and both components of the
transition-branch gradient `gradPsiCoeff d • (d·u)` tend to 0, matching the
inner branch; as `d → 0.5` from below, the value tends to 1 and the
gradient components tend to 0, matching the outer branch. -/
theorem Psi_transition_smooth (u : Vec2) (_hu : u.squaredNorm = 1) :
    Tendsto transPsi (nhdsWithin (0.25 * Real.sqrt 2) (Ioi (0.25 * Real.sqrt 2))) (nhds 0) ∧
    Tendsto (fun d => (Vec2.smul (gradPsiCoeff d) (Vec2.smul d u)).x)
      (nhdsWithin (0.25 * Real.sqrt 2) (Ioi (0.25 * Real.sqrt 2))) (nhds 0) ∧
    Tendsto (fun d => (Vec2.smul (gradPsiCoeff d) (Vec2.smul d u)).y)
      (nhdsWithin (0.25 * Real.sqrt 2) (Ioi (0.25 * Real.sqrt 2))) (nhds 0) ∧
    Tendsto transPsi (nhdsWithin 0.5 (Iio 0.5)) (nhds 1) ∧
    Tendsto (fun d => (Vec2.smul (gradPsiCoeff d) (Vec2.smul d u)).x)
      (nhdsWithin 0.5 (Iio 0.5)) (nhds 0) ∧
    Tendsto (fun d => (Vec2.smul (gradPsiCoeff d) (Vec2.smul d u)).y)
      (nhdsWithin 0.5 (Iio 0.5)) (nhds 0) := by
  have hval1 : Tendsto transPsi
      (nhdsWithin (0.25 * Real.sqrt 2) (Ioi (0.25 * Real.sqrt 2))) (nhds 0) := by
    have h := continuous_transPsi.tendsto (0.25 * Real.sqrt 2)
    rw [transPsi_r1] at h
    exact h.mono_left nhdsWithin_le_nhds
  have hval2 : Tendsto transPsi (nhdsWithin 0.5 (Iio 0.5)) (nhds 1) := by
    have h := continuous_transPsi.tendsto 0.5
    rw [transPsi_half] at h
    exact h.mono_left nhdsWithin_le_nhds
  have hg1x : Tendsto (fun d => (Vec2.smul (gradPsiCoeff d) (Vec2.smul d u)).x)
      (nhdsWithin (0.25 * Real.sqrt 2) (Ioi (0.25 * Real.sqrt 2))) (nhds 0) := by
    simpa [Vec2.smul] using
      tendsto_gradPsiCoeff_mul (0.25 * Real.sqrt 2) r1_pos coeffCore_r1
        (Ioi (0.25 * Real.sqrt 2)) u.x
  have hg1y : Tendsto (fun d => (Vec2.smul (gradPsiCoeff d) (Vec2.smul d u)).y)
      (nhdsWithin (0.25 * Real.sqrt 2) (Ioi (0.25 * Real.sqrt 2))) (nhds 0) := by
    simpa [Vec2.smul] using
      tendsto_gradPsiCoeff_mul (0.25 * Real.sqrt 2) r1_pos coeffCore_r1
        (Ioi (0.25 * Real.sqrt 2)) u.y
  have hg2x : Tendsto (fun d => (Vec2.smul (gradPsiCoeff d) (Vec2.smul d u)).x)
      (nhdsWithin 0.5 (Iio 0.5)) (nhds 0) := by
    simpa [Vec2.smul] using
      tendsto_gradPsiCoeff_mul 0.5 (by norm_num) coeffCore_half (Iio 0.5) u.x
  have hg2y : Tendsto (fun d => (Vec2.smul (gradPsiCoeff d) (Vec2.smul d u)).y)
      (nhdsWithin 0.5 (Iio 0.5)) (nhds 0) := by
    simpa [Vec2.smul] using
      tendsto_gradPsiCoeff_mul 0.5 (by norm_num) coeffCore_half (Iio 0.5) u.y
  exact ⟨hval1, hg1x, hg1y, hval2, hg2x, hg2y⟩

/-- Witness for C6 with the concrete unit direction `u = (1,0)`. -/
theorem Psi_transition_smooth_witness :
    Vec2.squaredNorm ⟨1, 0⟩ = 1 ∧
    (Tendsto transPsi (nhdsWithin (0.25 * Real.sqrt 2) (Ioi (0.25 * Real.sqrt 2))) (nhds 0) ∧
     Tendsto (fun d => (Vec2.smul (gradPsiCoeff d) (Vec2.smul d ⟨1, 0⟩)).x)
       (nhdsWithin (0.25 * Real.sqrt 2) (Ioi (0.25 * Real.sqrt 2))) (nhds 0) ∧
     Tendsto (fun d => (Vec2.smul (gradPsiCoeff d) (Vec2.smul d ⟨1, 0⟩)).y)
       (nhdsWithin (0.25 * Real.sqrt 2) (Ioi (0.25 * Real.sqrt 2))) (nhds 0) ∧
     Tendsto transPsi (nhdsWithin 0.5 (Iio 0.5)) (nhds 1) ∧
     Tendsto (fun d => (Vec2.smul (gradPsiCoeff d) (Vec2.smul d ⟨1, 0⟩)).x)
       (nhdsWithin 0.5 (Iio 0.5)) (nhds 0) ∧
     Tendsto (fun d => (Vec2.smul (gradPsiCoeff d) (Vec2.smul d ⟨1, 0⟩)).y)
       (nhdsWithin 0.5 (Iio 0.5)) (nhds 0)) := by
  have h1 : Vec2.squaredNorm ⟨1, 0⟩ = 1 := by
    simp [Vec2.squaredNorm, Vec2.dot]
  exact ⟨h1, Psi_transition_smooth ⟨1, 0⟩ h1⟩

/-! Derivatives of the radial profile `transPsi`, for claim C3. -/

theorem hasDerivAt_theta (d : ℝ) :
    HasDerivAt (fun t : ℝ => psiConst * (t - 0.5)) psiConst d := by
  have h := ((hasDerivAt_id d).sub_const 0.5).const_mul psiConst
  simpa using h

theorem hasDerivAt_cosTheta (d : ℝ) :
    HasDerivAt (fun t : ℝ => Real.cos (psiConst * (t - 0.5)))
      (-Real.sin (psiConst * (d - 0.5)) * psiConst) d := by
  have h := (Real.hasDerivAt_cos (psiConst * (d - 0.5))).comp d (hasDerivAt_theta d)
  simpa [Function.comp] using h

theorem hasDerivAt_sinTheta (d : ℝ) :
    HasDerivAt (fun t : ℝ => Real.sin (psiConst * (t - 0.5)))
      (Real.cos (psiConst * (d - 0.5)) * psiConst) d := by
  have h := (Real.hasDerivAt_sin (psiConst * (d - 0.5))).comp d (hasDerivAt_theta d)
  simpa [Function.comp] using h

theorem hasDerivAt_transPsi (d : ℝ) :
    HasDerivAt transPsi
      (-2 * psiConst * Real.cos (psiConst * (d - 0.5)) * Real.sin (psiConst * (d - 0.5))) d := by
  have h := (hasDerivAt_cosTheta d).pow 2
  have heq : transPsi = fun t : ℝ => Real.cos (psiConst * (t - 0.5)) ^ 2 := rfl
  rw [heq]
  convert h using 1
  push_cast
  ring

theorem deriv_transPsi (d : ℝ) :
    deriv transPsi d
      = -2 * psiConst * Real.cos (psiConst * (d - 0.5)) * Real.sin (psiConst * (d - 0.5)) :=
  (hasDerivAt_transPsi d).deriv

theorem deriv_transPsi_eq :
    deriv transPsi
      = fun d => -2 * psiConst * Real.cos (psiConst * (d - 0.5))
          * Real.sin (psiConst * (d - 0.5)) :=
  funext deriv_transPsi

theorem hasDerivAt_deriv_transPsi (d : ℝ) :
    HasDerivAt (deriv transPsi)
      (2 * psiConst ^ 2
        * (Real.sin (psiConst * (d - 0.5)) ^ 2 - Real.cos (psiConst * (d - 0.5)) ^ 2)) d := by
  rw [deriv_transPsi_eq]
  have h := ((hasDerivAt_cosTheta d).mul (hasDerivAt_sinTheta d)).const_mul (-2 * psiConst)
  have heq : (fun t : ℝ => -2 * psiConst * Real.cos (psiConst * (t - 0.5))
        * Real.sin (psiConst * (t - 0.5)))
      = fun t : ℝ => -2 * psiConst
          * (Real.cos (psiConst * (t - 0.5)) * Real.sin (psiConst * (t - 0.5))) := by
    funext t; ring
  rw [heq]
  convert h using 1
  ring

theorem deriv2_transPsi (d : ℝ) :
    deriv (deriv transPsi) d
      = 2 * psiConst ^ 2
          * (Real.sin (psiConst * (d - 0.5)) ^ 2 - Real.cos (psiConst * (d - 0.5)) ^ 2) :=
  (hasDerivAt_deriv_transPsi d).deriv

/-! Numeric facts about the C3 failing input `d0 = (2 + √2)/8`,
whose transition angle is `psiConst * (d0 - 0.5) = π/4`. -/

theorem d0_theta : psiConst * ((2 + Real.sqrt 2) / 8 - 0.5) = π / 4 := by
  have h : ((2 + Real.sqrt 2) / 8 - 0.5 : ℝ) = (0.5 * Real.sqrt 2 - 1) / 4 := by ring
  have hne := halfSqrtTwoSubOne_ne
  rw [psiConst, h]
  field_simp

theorem r1_lt_d0 : 0.25 * Real.sqrt 2 < (2 + Real.sqrt 2) / 8 := by
  nlinarith [sqrt_two_lt_two]

theorem d0_lt_half : (2 + Real.sqrt 2) / 8 < 0.5 := by
  nlinarith [sqrt_two_lt_two]

theorem d0_pos : (0 : ℝ) < (2 + Real.sqrt 2) / 8 := by
  nlinarith [sqrt_two_pos]

/-! Claim C3. -/

/-- C3: code-bug evidence.  In the reference `laplPsi` the factor
`(1 - dot/squaredNorm)` multiplying the transverse term is identically
zero (because `dot` and `squaredNorm` of the same vector coincide), so the
function returns the radial term `f''(d)` alone.  At the concrete input
`center = (0.5, 0.5)`, `y = (0.5 + (2+√2)/8, 0.5)` — in the transition
region, with transition angle `π/4` — the code returns `0`, while the
analytic Laplacian `f''(d) + f'(d)/d` of the radial profile, which the
claim (and the function's own documentation) prescribe, equals
`-psiConst/d ≠ 0`. -/
theorem laplPsi_missing_transverse_term :
    laplPsi ⟨0.5, 0.5⟩ ⟨0.5 + (2 + Real.sqrt 2) / 8, 0.5⟩ = 0 ∧
    radialProfileLaplacian ((2 + Real.sqrt 2) / 8)
      = -psiConst / ((2 + Real.sqrt 2) / 8) ∧
    -psiConst / ((2 + Real.sqrt 2) / 8) ≠ 0 := by
  have hsub : Vec2.sub ⟨0.5 + (2 + Real.sqrt 2) / 8, 0.5⟩ ⟨0.5, 0.5⟩
      = ⟨(2 + Real.sqrt 2) / 8, 0⟩ := by
    rw [Vec2.sub]
    norm_num
  have hsq : Vec2.squaredNorm ⟨(2 + Real.sqrt 2) / 8, 0⟩ = ((2 + Real.sqrt 2) / 8) ^ 2 := by
    rw [Vec2.squaredNorm, Vec2.dot]
    ring
  have hdot : Vec2.dot ⟨(2 + Real.sqrt 2) / 8, 0⟩ ⟨(2 + Real.sqrt 2) / 8, 0⟩
      = ((2 + Real.sqrt 2) / 8) ^ 2 := by
    rw [Vec2.dot]
    ring
  have hnorm : Vec2.norm ⟨(2 + Real.sqrt 2) / 8, 0⟩ = (2 + Real.sqrt 2) / 8 := by
    rw [Vec2.norm, hsq, Real.sqrt_sq (le_of_lt d0_pos)]
  have hne2 : ((2 + Real.sqrt 2) / 8 : ℝ) ^ 2 ≠ 0 := pow_ne_zero 2 (ne_of_gt d0_pos)
  refine ⟨?_, ?_, ?_⟩
  · rw [laplPsi, hsub, hnorm, if_neg (not_le.mpr r1_lt_d0), if_neg (not_le.mpr d0_lt_half),
      hsq, hdot, d0_theta, Real.sin_pi_div_four, Real.cos_pi_div_four, div_self hne2]
    ring
  · rw [radialProfileLaplacian, deriv2_transPsi, deriv_transPsi, d0_theta,
      Real.sin_pi_div_four, Real.cos_pi_div_four]
    have hs2 : Real.sqrt 2 * Real.sqrt 2 = 2 := Real.mul_self_sqrt (by norm_num)
    have hd0 : ((2 + Real.sqrt 2) / 8 : ℝ) ≠ 0 := ne_of_gt d0_pos
    field_simp
    linear_combination (2 * psiConst * 8 * (2 + Real.sqrt 2)) * hs2
  · exact div_ne_zero (neg_ne_zero.mpr psiConst_ne) (ne_of_gt d0_pos)

/-! Assembly and elimination lemmas for `SolveBVP`. -/

theorem entryValue_zero {n : ℕ} (t : LoadEntry n) : entryValue (fun _ => 0) t = 0 := by
  rw [entryValue]
  simp [sum_map_zero]

theorem AssembleVectorLocally_zero {n : ℕ} :
    ∀ (entries : List (LoadEntry n)) (phi0 : Fin n → ℝ),
      AssembleVectorLocally (fun _ => 0) entries phi0 = phi0 := by
  intro entries
  induction entries with
  | nil => intro phi0; rfl
  | cons hd tl ih =>
      intro phi0
      have hstep : (fun i => if i = hd.dof then phi0 i + entryValue (fun _ => (0:ℝ)) hd
          else phi0 i) = phi0 := by
        funext i
        rw [entryValue_zero, add_zero]
        simp
      calc AssembleVectorLocally (fun _ => 0) (hd :: tl) phi0
          = AssembleVectorLocally (fun _ => 0) tl
              (fun i => if i = hd.dof then phi0 i + entryValue (fun _ => 0) hd else phi0 i) := rfl
        _ = AssembleVectorLocally (fun _ => 0) tl phi0 := by rw [hstep]
        _ = phi0 := ih phi0

theorem bvpMatrix_fixed_row {n : ℕ} (sys : BVPSystem n) (u : Vec2 → ℝ)
    (y : Fin n → ℝ) (i : Fin n) (hi : sys.bd_flags i = true) :
    Matrix.mulVec (bvpMatrix sys u) y i = y i := by
  have hrow : ∀ j, bvpMatrix sys u i j = if i = j then 1 else 0 := by
    intro j
    rw [bvpMatrix, FixFlaggedSolutionCompAlt]
    simp [bvpSelector, InitEssentialConditionFromFunction, hi]
  rw [Matrix.mulVec]
  rw [show (fun j => bvpMatrix sys u i j) = fun j => if i = j then 1 else 0 from funext hrow]
  simp [Matrix.dotProduct, ite_mul, one_mul, zero_mul]

theorem bvpRhs_fixed {n : ℕ} (sys : BVPSystem n) (u : Vec2 → ℝ)
    (i : Fin n) (hi : sys.bd_flags i = true) :
    bvpRhs sys u i = u (sys.coords i) := by
  rw [bvpRhs, FixFlaggedSolutionCompAlt]
  simp [bvpSelector, InitEssentialConditionFromFunction, hi]

/-! Claim C7. -/

/-- C7: `SolveBVP` assembles the right-hand-side load vector for the
hard-coded source `f ≡ 0`, which makes it identically zero; it determines
the fixed boundary dofs and their values by sampling `u` at the boundary
interpolation nodes and eliminates them from the system, so that whenever
the (exact) sparse solve succeeds, the returned coefficient vector takes
exactly the prescribed Dirichlet value `u(coords i)` at every
boundary-flagged dof `i`. -/
theorem SolveBVP_zero_load_and_dirichlet {n : ℕ} {F : Type} (sys : BVPSystem n)
    (u : Vec2 → ℝ) (compute : Matrix (Fin n) (Fin n) ℝ → Option F)
    (solve : F → (Fin n → ℝ) → Option (Fin n → ℝ)) (sol : Fin n → ℝ)
    (hok : SolveBVP compute solve sys u = Except.ok sol)
    (hexact : ∀ f b y, solve f b = some y → Matrix.mulVec (bvpMatrix sys u) y = b) :
    bvpLoad sys = (fun _ => 0) ∧
    ∀ i, sys.bd_flags i = true → sol i = u (sys.coords i) := by
  constructor
  · exact AssembleVectorLocally_zero sys.loadCells (fun _ => 0)
  · intro i hi
    cases hc : compute (bvpMatrix sys u) with
    | none => simp [SolveBVP, hc] at hok
    | some fact =>
        cases hs : solve fact (bvpRhs sys u) with
        | none => simp [SolveBVP, hc, hs] at hok
        | some y =>
            simp [SolveBVP, hc, hs] at hok
            have hmv := hexact fact (bvpRhs sys u) y hs
            calc sol i = y i := by rw [hok]
              _ = Matrix.mulVec (bvpMatrix sys u) y i := (bvpMatrix_fixed_row sys u y i hi).symm
              _ = bvpRhs sys u i := by rw [hmv]
              _ = u (sys.coords i) := bvpRhs_fixed sys u i hi

/-- Witness for C7 on the one-dof system `sampleBVP` with Dirichlet data
`u ≡ 5` and a trivially exact solver. -/
theorem SolveBVP_zero_load_and_dirichlet_witness :
    bvpLoad sampleBVP = (fun _ => 0) ∧
    ∀ i, sampleBVP.bd_flags i = true →
      bvpRhs sampleBVP (fun _ => 5) i = (fun _ : Vec2 => (5 : ℝ)) (sampleBVP.coords i) := by
  refine SolveBVP_zero_load_and_dirichlet sampleBVP (fun _ => 5)
      (fun _ => some ()) (fun _ b => some b) (bvpRhs sampleBVP (fun _ => 5)) rfl ?_
  intro f b y hy
  have hyb : b = y := Option.some.inj hy
  funext i
  have hi0 : i = 0 := Subsingleton.elim i 0
  have hflag : sampleBVP.bd_flags i = true := rfl
  rw [bvpMatrix_fixed_row sampleBVP (fun _ => 5) y i hflag, hyb]

/-! Claim C8. -/

/-- C8: a failure of the factorization stage or of the solve stage of
Eigen's sparse LU is fatal for the `SolveBVP` call: the corresponding
`LF_VERIFY_MSG` failure is propagated as the respective error and nothing
is recovered; a coefficient vector is returned only when both stages
succeed, so no partial result is ever produced on failure. -/
theorem SolveBVP_failure_fatal {n : ℕ} {F : Type} (sys : BVPSystem n) (u : Vec2 → ℝ)
    (compute : Matrix (Fin n) (Fin n) ℝ → Option F)
    (solve : F → (Fin n → ℝ) → Option (Fin n → ℝ)) :
    (compute (bvpMatrix sys u) = none →
        SolveBVP compute solve sys u = Except.error SolveError.luFailed) ∧
    (∀ f, compute (bvpMatrix sys u) = some f → solve f (bvpRhs sys u) = none →
        SolveBVP compute solve sys u = Except.error SolveError.lseFailed) ∧
    ∀ sol, SolveBVP compute solve sys u = Except.ok sol →
        ∃ f, compute (bvpMatrix sys u) = some f ∧ solve f (bvpRhs sys u) = some sol := by
  refine ⟨?_, ?_, ?_⟩
  · intro h
    rw [SolveBVP, h]
  · intro f hf hs
    simp [SolveBVP, hf, hs]
  · intro sol hsol
    cases hc : compute (bvpMatrix sys u) with
    | none => simp [SolveBVP, hc] at hsol
    | some f =>
        cases hs : solve f (bvpRhs sys u) with
        | none => simp [SolveBVP, hc, hs] at hsol
        | some y =>
            simp [SolveBVP, hc, hs] at hsol
            exact ⟨f, rfl, hsol ▸ hs⟩

/-- Witness for C8: with a factorization stage that fails, `SolveBVP`
returns the LU failure error. -/
theorem SolveBVP_failure_fatal_witness :
    SolveBVP (fun _ : Matrix (Fin 1) (Fin 1) ℝ => (none : Option Unit))
        (fun _ b => some b)
        ⟨Matrix.of fun _ _ => 0, [], fun _ => false, fun _ => ⟨0, 0⟩⟩
        (fun _ => 0)
      = Except.error SolveError.luFailed :=
  (SolveBVP_failure_fatal ⟨Matrix.of fun _ _ => 0, [], fun _ => false, fun _ => ⟨0, 0⟩⟩
      (fun _ => 0) (fun _ => (none : Option Unit)) (fun _ b => some b)).1 rfl

end StableEvaluationAtAPoint
